import Mathlib

/-!
A shallow embedding of the mapper chain-resolution core of this
repository (`sdk/internal-shared/mapper/chain.go`): the value-driven
chain search (`Func.Chain` and its recursive worker `Func.chain`), the
predicate-driven input-set search (`Func.ChainInputSet` / `inputSet`),
the target finder (`ChainTarget`) and chain execution (`Chain.Call`),
together with theorems about them.

Go maps whose iteration order is unspecified are embedded as lists in
first-insertion order (for the missing-argument set this is the
declared positional argument order), the determinization the design
notes themselves prescribe.  Pointer identity of `*Func` is embedded
as a numeric `id` field; the `chainSet`, `pendingSet` and `visited`
maps keyed by pointers become lists of ids.  The recursive searches
take an explicit fuel parameter standing for the recursion depth,
which the Go code bounds through the growth of `pendingSet` (resp.
`visited`); the entry points pass fuel that exceeds that bound.
-/

namespace Mapper

/-- A type descriptor: a canonical comparable identity (`key`, the Go
`Type.Key()`) and a display name (`name`, the Go `Type.String()`). -/
structure Ty where
  key : Nat
  name : String
deriving DecidableEq, Repr

/-- A concrete value together with its externally derived type
descriptor. -/
structure Value where
  ty : Ty
  data : Nat
deriving DecidableEq, Repr

/-- Result of executing a bound invocable: an execution error, or a
possibly absent produced value (a Go nil result is `none`). -/
inductive ExecR where
  | err : String → ExecR
  | ok : Option Value → ExecR

/-- A registered operation (Go `*Func`).  `id` stands for the pointer
identity by which the Go code keys its `chainSet`, `pendingSet` and
`visited` maps; `boundValues` is the Go `Func.Values`; `exec` models
the external `Prepare(values...).Call()` capability. -/
structure Func where
  id : Nat
  args : List Ty
  out : Ty
  boundValues : List Value
  exec : List Value → ExecR

/-- First-occurrence deduplication of a list of types by `key`. -/
def dedupByKey : List Ty → List Ty
  | [] => []
  | t :: ts => t :: (dedupByKey ts).filter (fun u => u.key != t.key)

/-- Modelled from the spec: the `Func.args` helper (the `MissingArgs`
capability of the Invocable contract) called by `chain.go` is not among
the given sources.  Per the spec it yields, for each positional arg
whose Key matches no supplied value's type Key, one representative
entry per Key (duplicate Keys collapse), here kept in declared
argument order. -/
def missingArgs (f : Func) (values : List Value) : List Ty :=
  dedupByKey (f.args.filter (fun a => !(values.any (fun v => v.ty.key == a.key))))

/-- The mapper index (Go `mapperByOut`): producers of output key `k`,
in library order. -/
def mappersFor (mappers : List Func) (k : Nat) : List Func :=
  mappers.filter (fun m => m.out.key == k)

/-- An ordered chain of invocables plus the value pool used to build
it (Go `Chain`). -/
structure Chain where
  funcs : List Func
  values : List Value

mutual

/-- The recursive chain search (Go `Func.chain`).  Returns the search
outcome together with the final committed set (`chainSet`), which the
Go code mutates in place and never rolls back, not even across failed
candidates. -/
def chainGo (fuel : Nat) (f : Func) (values : List Value) (mappers : List Func)
    (chain : List Func) (cs : List Nat) (pending : List Nat) :
    Except String (List Func) × List Nat :=
  match fuel with
  | 0 => (Except.error "fuel exhausted", cs)
  | fuel + 1 =>
    if (missingArgs f values).isEmpty then
      (Except.ok (chain ++ [f]), f.id :: cs)
    else
      missingLoop fuel (missingArgs f values) f values mappers chain cs (f.id :: pending)
termination_by (fuel, 0, 0)

/-- The `MISSING_LOOP` of Go `Func.chain`: walk the missing types; a
type all of whose producers are exhausted fails the whole call with an
error naming it. -/
def missingLoop (fuel : Nat) (missing : List Ty) (f : Func) (values : List Value)
    (mappers : List Func) (chain : List Func) (cs : List Nat) (pending : List Nat) :
    Except String (List Func) × List Nat :=
  match missing with
  | [] => (Except.ok (chain ++ [f]), cs)
  | t :: rest =>
    let ms := mappersFor mappers t.key
    if ms.isEmpty then
      (Except.error ("unable to map to " ++ t.name), cs)
    else if ms.any (fun m => cs.contains m.id) then
      missingLoop fuel rest f values mappers chain cs pending
    else
      tryCands fuel ms t rest f values mappers chain cs pending
termination_by (fuel, missing.length + 1, 0)

/-- The candidate loop of Go `Func.chain`: try each producer of the
current missing type that is not pending; the first success commits
its chain and moves on to the remaining missing types. -/
def tryCands (fuel : Nat) (cands : List Func) (t : Ty) (rest : List Ty) (f : Func)
    (values : List Value) (mappers : List Func) (chain : List Func) (cs : List Nat)
    (pending : List Nat) : Except String (List Func) × List Nat :=
  match cands with
  | [] => (Except.error ("unable to map to " ++ t.name), cs)
  | m :: more =>
    if pending.contains m.id then
      tryCands fuel more t rest f values mappers chain cs pending
    else
      match chainGo fuel m values mappers chain cs pending with
      | (Except.ok newChain, cs') => missingLoop fuel rest f values mappers newChain cs' pending
      | (Except.error _, cs') => tryCands fuel more t rest f values mappers chain cs' pending
termination_by (fuel, rest.length + 1, cands.length + 1)

end

/-- Fuel sufficient for the chain search: the pending set gains a
fresh member on every nesting level, so the depth never exceeds the
library size plus the target plus one leaf call. -/
def chainFuel (mappers : List Func) : Nat := mappers.length + 2

/-- The chain builder entry point (Go `Func.Chain`, the spec's
`BuildChain`): augment the values with the target's bound values,
short-circuit when nothing is missing, otherwise run the recursive
search from empty state. -/
def Func.Chain (f : Func) (mappers : List Func) (values : List Value) :
    Except String Mapper.Chain :=
  let values := values ++ f.boundValues
  if (missingArgs f values).isEmpty then
    Except.ok ⟨[f], values⟩
  else
    match chainGo (chainFuel mappers) f values mappers [] [] [] with
    | (Except.ok funcs, _) => Except.ok ⟨funcs, values⟩
    | (Except.error e, _) => Except.error e

/-- Scan of the target finder (the loop body of Go `ChainTarget`). -/
def chainTargetGo (check : Ty → Bool) (allMappers : List Func) (values : List Value) :
    List Func → Option Mapper.Chain
  | [] => none
  | m :: rest =>
    if check m.out then
      match m.Chain allMappers values with
      | Except.ok c => some c
      | Except.error _ => chainTargetGo check allMappers values rest
    else
      chainTargetGo check allMappers values rest

/-- The target finder (Go `ChainTarget`, the spec's `FindChain`):
first library entry whose output satisfies the check and whose chain
resolves. -/
def ChainTarget (check : Ty → Bool) (mappers : List Func) (values : List Value) :
    Option Mapper.Chain :=
  chainTargetGo check mappers values mappers

/-- Output type of a chain (Go `Chain.Out`): the output of the last
invocable; `none` embeds the panic on an empty chain. -/
def Chain.Out (c : Mapper.Chain) : Option Ty :=
  c.funcs.getLast?.map Func.out

/-- Append a produced value to the pool when it is present (the Go
`reflect.ValueOf(result).IsValid()` guard before the append). -/
def appendVal (values : List Value) : Option Value → List Value
  | some v => values ++ [v]
  | none => values

/-- The loop of Go `Chain.Call`: run the invocables in order against
the evolving pool, abort on the first error (keeping the pool
mutations made so far), return the last result. -/
def callFuncs : List Func → List Value → Except String (Option Value) × List Value
  | [], values => (Except.ok none, values)
  | f :: rest, values =>
    match f.exec values with
    | ExecR.err e => (Except.error e, values)
    | ExecR.ok r =>
      match rest with
      | [] => (Except.ok r, appendVal values r)
      | _ :: _ => callFuncs rest (appendVal values r)

/-- Chain execution (Go `Chain.Call`): returns the result or first
error, together with the chain as mutated in place (its value pool
retains every append made before a failure). -/
def Chain.Call (c : Mapper.Chain) : Except String (Option Value) × Mapper.Chain :=
  let r := callFuncs c.funcs c.values
  (r.1, ⟨c.funcs, r.2⟩)

/-- Pool reached after successfully executing a list of invocables in
order from a starting pool; `none` when one of them fails. -/
def runPrefix : List Func → List Value → Option (List Value)
  | [], values => some values
  | f :: rest, values =>
    match f.exec values with
    | ExecR.err _ => none
    | ExecR.ok r => runPrefix rest (appendVal values r)

/-- Key membership in a list of types. -/
def keyInTys (k : Nat) (ts : List Ty) : Bool :=
  ts.any (fun t => t.key == k)

/-- The argument scan at the head of Go `Func.inputSet`: split the
arguments into those already expected or suppliable (accumulated onto
`pending`) and the missing ones. -/
def argScan : List Ty → (Ty → Bool) → List Ty → List Ty → List Ty × List Ty
  | [], _, missing, pending => (missing, pending)
  | a :: rest, check, missing, pending =>
    if keyInTys a.key pending then
      argScan rest check missing pending
    else if !(check a) then
      argScan rest check (if keyInTys a.key missing then missing else missing ++ [a]) pending
    else
      argScan rest check missing (pending ++ [a])

mutual

/-- The predicate-driven search (Go `Func.inputSet`): compute a set of
caller-suppliable types sufficient for this func, `none` on failure. -/
def inputSetGo (fuel : Nat) (f : Func) (mappers : List Func) (check : Ty → Bool)
    (visited : List Nat) (input : List Ty) : Option (List Ty) :=
  match fuel with
  | 0 => none
  | fuel + 1 =>
    match argScan f.args check [] input with
    | (missing, pending) =>
      if missing.isEmpty then some pending
      else mapperLoop fuel mappers f mappers check visited missing pending
termination_by (fuel, 0)

/-- The mapper loop of Go `Func.inputSet`: a single pass over the
library; every unvisited producer of a still-missing type is tried
recursively, a success resolves that type and adopts the returned set
as the new pending set. -/
def mapperLoop (fuel : Nat) (ms : List Func) (f : Func) (mappers : List Func)
    (check : Ty → Bool) (visited : List Nat) (missing : List Ty) (pending : List Ty) :
    Option (List Ty) :=
  match ms with
  | [] => none
  | m :: rest =>
    if visited.contains m.id then
      mapperLoop fuel rest f mappers check visited missing pending
    else if !(keyInTys m.out.key missing) then
      mapperLoop fuel rest f mappers check visited missing pending
    else
      match inputSetGo fuel m mappers check (m.id :: visited) pending with
      | none => mapperLoop fuel rest f mappers check visited missing pending
      | some result =>
        let missing1 := missing.filter (fun t => t.key != m.out.key)
        if missing1.isEmpty then some result
        else mapperLoop fuel rest f mappers check visited missing1 result
termination_by (fuel, ms.length + 1)

end

/-- Fuel sufficient for the input-set search: the visited set gains a
fresh member on every nesting level. -/
def inputFuel (mappers : List Func) : Nat := mappers.length + 2

/-- The input-set entry point (Go `Func.ChainInputSet`, the spec's
`RequiredLeafTypes`): `none` embeds the nil result. -/
def Func.ChainInputSet (f : Func) (mappers : List Func) (check : Ty → Bool) :
    Option (List Ty) :=
  inputSetGo (inputFuel mappers) f mappers check [] []


/-! ### Structural lemmas about the chain search -/

theorem missingLoop_ok_ends (fuel : Nat) :
    ∀ (missing : List Ty) (f : Func) (values : List Value) (mappers chain : List Func)
      (cs pending : List Nat) (l : List Func) (cs2 : List Nat),
      missingLoop fuel missing f values mappers chain cs pending = (Except.ok l, cs2) →
      ∃ p, l = p ++ [f] := by
  intro missing
  induction missing with
  | nil =>
    intro f values mappers chain cs pending l cs2 h
    simp only [missingLoop, Prod.mk.injEq, Except.ok.injEq] at h
    exact ⟨chain, h.1.symm⟩
  | cons t rest ih =>
    intro f values mappers chain cs pending l cs2 h
    simp only [missingLoop] at h
    split at h
    · simp at h
    · split at h
      · exact ih f values mappers chain cs pending l cs2 h
      · have tc : ∀ (cands : List Func) (chain1 : List Func) (cs1 : List Nat),
            tryCands fuel cands t rest f values mappers chain1 cs1 pending =
              (Except.ok l, cs2) → ∃ p, l = p ++ [f] := by
          intro cands
          induction cands with
          | nil =>
            intro chain1 cs1 hh
            simp only [tryCands] at hh
            simp at hh
          | cons m more ihc =>
            intro chain1 cs1 hh
            simp only [tryCands] at hh
            split at hh
            · exact ihc chain1 cs1 hh
            · split at hh
              · exact ih f values mappers _ _ pending l cs2 hh
              · exact ihc chain1 _ hh
        exact tc (mappersFor mappers t.key) chain cs h

theorem chainGo_ok_ends (fuel : Nat) (f : Func) (values : List Value)
    (mappers chain : List Func) (cs pending : List Nat) (l : List Func) (cs2 : List Nat)
    (h : chainGo fuel f values mappers chain cs pending = (Except.ok l, cs2)) :
    ∃ p, l = p ++ [f] := by
  cases fuel with
  | zero => simp [chainGo] at h
  | succ n =>
    simp only [chainGo] at h
    split at h
    · simp only [Prod.mk.injEq, Except.ok.injEq] at h
      exact ⟨chain, h.1.symm⟩
    · exact missingLoop_ok_ends n _ f values mappers chain cs _ l cs2 h

theorem FuncChain_ok_ends (f : Func) (mappers : List Func) (values : List Value)
    (c : Mapper.Chain) (h : Func.Chain f mappers values = Except.ok c) :
    ∃ p, c.funcs = p ++ [f] := by
  simp only [Func.Chain] at h
  split at h
  · simp only [Except.ok.injEq] at h
    exact ⟨[], by rw [← h]; simp⟩
  · split at h
    · next funcs cs heq =>
      simp only [Except.ok.injEq] at h
      obtain ⟨p, hp⟩ := chainGo_ok_ends _ f _ mappers [] [] [] funcs cs heq
      exact ⟨p, by rw [← h, hp]⟩
    · simp at h

theorem ends_out (c : Mapper.Chain) (f : Func) (p : List Func) (hp : c.funcs = p ++ [f]) :
    c.Out = some f.out := by
  simp [Chain.Out, hp]

/-- C9: every chain successfully returned by the chain builder has the
target as the last element of its funcs list, and therefore the chain's
output type is the target's output type descriptor. -/
theorem chain_ends_with_target (f : Func) (mappers : List Func) (values : List Value)
    (c : Mapper.Chain) (h : Func.Chain f mappers values = Except.ok c) :
    (∃ p, c.funcs = p ++ [f]) ∧ c.Out = some f.out := by
  obtain ⟨p, hp⟩ := FuncChain_ok_ends f mappers values c h
  exact ⟨⟨p, hp⟩, ends_out c f p hp⟩

/-- C4: when the target's missing-argument set against the augmented
values is empty, the chain builder returns the chain consisting of the
target alone with those values, for every library, with no error. -/
theorem chain_short_circuit (f : Func) (mappers : List Func) (values : List Value)
    (h : missingArgs f (values ++ f.boundValues) = []) :
    Func.Chain f mappers values = Except.ok ⟨[f], values ++ f.boundValues⟩ := by
  simp [Func.Chain, h]

/-! ### The target finder -/

theorem chainTargetGo_out (check : Ty → Bool) (A : List Func) (v : List Value) :
    ∀ (l : List Func) (c : Mapper.Chain), chainTargetGo check A v l = some c →
      ∃ t, c.Out = some t ∧ check t = true := by
  intro l
  induction l with
  | nil => intro c h; simp [chainTargetGo] at h
  | cons m rest ih =>
    intro c h
    simp only [chainTargetGo] at h
    split at h
    · split at h
      · next c2 heq =>
        simp only [Option.some.injEq] at h
        obtain ⟨p, hp⟩ := FuncChain_ok_ends m A v c2 heq
        exact ⟨m.out, by rw [← h]; exact ends_out c2 m p hp, by assumption⟩
      · exact ih c h
    · exact ih c h

/-- C10: whenever the target finder returns a chain, the acceptance
check holds on that chain's output type. -/
theorem chainTarget_accepted_out (check : Ty → Bool) (mappers : List Func)
    (values : List Value) (c : Mapper.Chain)
    (h : ChainTarget check mappers values = some c) :
    ∃ t, c.Out = some t ∧ check t = true :=
  chainTargetGo_out check mappers values mappers c h

/-- Boolean success test for an Except result. -/
def isOkE {α : Type} : Except String α → Bool
  | Except.ok _ => true
  | Except.error _ => false

theorem isOkE_iff {α : Type} (e : Except String α) :
    isOkE e = true ↔ ∃ c, e = Except.ok c := by
  cases e <;> simp [isOkE]

theorem chainTargetGo_find (check : Ty → Bool) (A : List Func) (v : List Value) :
    ∀ l : List Func, chainTargetGo check A v l =
      (l.find? (fun m => check m.out && isOkE (m.Chain A v))).bind
        (fun m => (m.Chain A v).toOption) := by
  intro l
  induction l with
  | nil => simp [chainTargetGo]
  | cons m rest ih =>
    by_cases hc : check m.out = true
    · cases hchain : m.Chain A v with
      | ok c =>
        simp only [chainTargetGo]
        simp [hc, hchain, List.find?_cons, isOkE, Except.toOption]
      | error e =>
        simp only [chainTargetGo]
        simp [hc, hchain, List.find?_cons, isOkE, ih, Except.toOption]
    · simp only [chainTargetGo]
      simp [hc, List.find?_cons, ih]

/-- C7: the target finder returns none exactly when no library entry
both satisfies the acceptance check on its output type and resolves
into a chain; otherwise it returns the chain built from the first
entry, in library order, that satisfies both conditions. -/
theorem chainTarget_first_in_order (check : Ty → Bool) (mappers : List Func)
    (values : List Value) :
    ChainTarget check mappers values =
      (mappers.find? (fun m => check m.out && isOkE (m.Chain mappers values))).bind
        (fun m => (m.Chain mappers values).toOption) ∧
    (ChainTarget check mappers values = none ↔
      ∀ m ∈ mappers, ¬(check m.out = true ∧ ∃ c, m.Chain mappers values = Except.ok c)) := by
  have h1 := chainTargetGo_find check mappers values mappers
  refine ⟨h1, ?_⟩
  rw [ChainTarget, h1]
  constructor
  · intro h0 m hm hbad
    obtain ⟨hc, c, hok⟩ := hbad
    cases hf : mappers.find? (fun m => check m.out && isOkE (m.Chain mappers values)) with
    | none =>
      rw [List.find?_eq_none] at hf
      have := hf m hm
      simp [hc, hok, isOkE] at this
    | some m2 =>
      rw [hf] at h0
      have hp := List.find?_some hf
      simp only [Bool.and_eq_true, isOkE_iff] at hp
      obtain ⟨_, c2, hok2⟩ := hp
      simp [hok2, Except.toOption] at h0
  · intro hall
    have hf : mappers.find? (fun m => check m.out && isOkE (m.Chain mappers values)) = none := by
      rw [List.find?_eq_none]
      intro m hm
      have := hall m hm
      by_cases hc : check m.out = true
      · cases hchain : m.Chain mappers values with
        | ok c => exact absurd ⟨hc, c, hchain⟩ this
        | error e => simp [hc, hchain, isOkE]
      · simp [hc]
    rw [hf]
    rfl

/-! ### Concrete fixtures used by witnesses and counterexamples -/

/-- Trivial execution capability producing no value. -/
def wNoExec : List Value → ExecR := fun _ => ExecR.ok none

def wTy : Ty := ⟨1, "w"⟩

/-- A target with no arguments. -/
def wLeaf : Func := ⟨0, [], wTy, [], wNoExec⟩

theorem chain_short_circuit_witness :
    missingArgs wLeaf ([] ++ wLeaf.boundValues) = [] ∧
    Func.Chain wLeaf [] [] = Except.ok ⟨[wLeaf], [] ++ wLeaf.boundValues⟩ :=
  ⟨rfl, chain_short_circuit wLeaf [] [] rfl⟩

theorem chain_ends_with_target_witness :
    (∃ p, (⟨[wLeaf], []⟩ : Mapper.Chain).funcs = p ++ [wLeaf]) ∧
    (⟨[wLeaf], []⟩ : Mapper.Chain).Out = some wLeaf.out :=
  chain_ends_with_target wLeaf [] [] ⟨[wLeaf], []⟩ rfl

theorem chainTarget_accepted_out_witness :
    ∃ t, (⟨[wLeaf], []⟩ : Mapper.Chain).Out = some t ∧ (fun u => u.key == 1) t = true :=
  chainTarget_accepted_out (fun u => u.key == 1) [wLeaf] [] ⟨[wLeaf], []⟩ rfl

/-! ### The missing committed-set insertion: duplicated invocables -/

def dupTyA : Ty := ⟨10, "a"⟩
def dupTyB : Ty := ⟨11, "b"⟩
def dupTyC : Ty := ⟨12, "c"⟩

/-- Target requiring types a and b. -/
def dupT : Func := ⟨0, [dupTyA, dupTyB], ⟨13, "res"⟩, [], wNoExec⟩

/-- Mapper producing a from c; it resolves with missing arguments, so
the Go code appends it to the chain without recording it in the
committed set. -/
def dupMa : Func := ⟨1, [dupTyC], dupTyA, [], wNoExec⟩

/-- Leaf mapper producing c. -/
def dupMc : Func := ⟨2, [], dupTyC, [], wNoExec⟩

/-- Mapper producing b from a; resolving it re-resolves the producer
of a, which was never recorded in the committed set. -/
def dupMb : Func := ⟨3, [dupTyA], dupTyB, [], wNoExec⟩

/-- C1: the chain built for a target whose two missing types are
produced through a shared intermediate mapper contains that mapper
(id 1) twice, violating the no-duplicate-invocable guarantee: the
recursive search only records an invocable in the committed set when
it resolves without missing arguments, so an intermediate mapper is
re-selected and re-appended. -/
theorem chain_duplicate_invocable :
    (Func.Chain dupT [dupMc, dupMa, dupMb] []).toOption.map
        (fun c => c.funcs.map (fun g => g.id)) = some [2, 1, 1, 3, 0] ∧
    ¬ ([2, 1, 1, 3, 0] : List Nat).Nodup := by
  constructor
  · simp [Func.Chain, chainGo, missingLoop, tryCands, missingArgs, dedupByKey, mappersFor,
      chainFuel, dupT, dupMa, dupMb, dupMc, dupTyA, dupTyB, dupTyC, Except.toOption]
  · decide

/-! ### Chain execution -/

theorem callFuncs_cons_ok (f : Func) (rest : List Func) (values : List Value)
    (r : Option Value) (h : f.exec values = ExecR.ok r) (hne : rest ≠ []) :
    callFuncs (f :: rest) values = callFuncs rest (appendVal values r) := by
  cases rest with
  | nil => exact absurd rfl hne
  | cons a l => simp [callFuncs, h]

theorem callFuncs_err (pre : List Func) :
    ∀ (values p : List Value), runPrefix pre values = some p →
      ∀ (g : Func) (post : List Func) (e : String), g.exec p = ExecR.err e →
        callFuncs (pre ++ g :: post) values = (Except.error e, p) := by
  induction pre with
  | nil =>
    intro values p hp g post e he
    simp only [runPrefix, Option.some.injEq] at hp
    subst hp
    simp [callFuncs, he]
  | cons f pre ih =>
    intro values p hp g post e he
    simp only [runPrefix] at hp
    cases hx : f.exec values with
    | err e2 => rw [hx] at hp; simp at hp
    | ok r =>
      rw [hx] at hp
      rw [List.cons_append,
        callFuncs_cons_ok f (pre ++ g :: post) values r hx (by simp)]
      exact ih (appendVal values r) p hp g post e he

theorem callFuncs_last (pre : List Func) :
    ∀ (values p : List Value), runPrefix pre values = some p →
      ∀ (g : Func) (r : Option Value), g.exec p = ExecR.ok r →
        callFuncs (pre ++ [g]) values = (Except.ok r, appendVal p r) := by
  induction pre with
  | nil =>
    intro values p hp g r hg
    simp only [runPrefix, Option.some.injEq] at hp
    subst hp
    simp [callFuncs, hg]
  | cons f pre ih =>
    intro values p hp g r hg
    simp only [runPrefix] at hp
    cases hx : f.exec values with
    | err e2 => rw [hx] at hp; simp at hp
    | ok r2 =>
      rw [hx] at hp
      rw [List.cons_append,
        callFuncs_cons_ok f (pre ++ [g]) values r2 hx (by simp)]
      exact ih (appendVal values r2) p hp g r hg

/-- C8: chain execution runs the invocables strictly in funcs order
against the evolving pool; at the first invocable whose execution
returns an error it stops and returns that error with no result,
whatever invocables follow; and when every invocable succeeds it
returns the final invocable's result. -/
theorem chain_call_order_and_abort (c : Mapper.Chain) :
    (∀ (pre : List Func) (g : Func) (post : List Func) (p : List Value) (e : String),
      c.funcs = pre ++ g :: post → runPrefix pre c.values = some p →
      g.exec p = ExecR.err e → (Chain.Call c).1 = Except.error e) ∧
    (∀ (pre : List Func) (g : Func) (p : List Value) (r : Option Value),
      c.funcs = pre ++ [g] → runPrefix pre c.values = some p →
      g.exec p = ExecR.ok r → (Chain.Call c).1 = Except.ok r) := by
  constructor
  · intro pre g post p e hf hp he
    simp only [Chain.Call, hf]
    rw [callFuncs_err pre c.values p hp g post e he]
  · intro pre g p r hf hp hg
    simp only [Chain.Call, hf]
    rw [callFuncs_last pre c.values p hp g r hg]

/-- C2 (amended): when execution fails at some invocable, Call returns
that error with no result, and the chain is left with the value pool
accumulated by the earlier successful invocables; their produced
values remain in the chain's state rather than being discarded. -/
theorem chain_call_error_keeps_partial_pool (c : Mapper.Chain)
    (pre : List Func) (g : Func) (post : List Func) (p : List Value) (e : String)
    (hf : c.funcs = pre ++ g :: post) (hp : runPrefix pre c.values = some p)
    (he : g.exec p = ExecR.err e) :
    Chain.Call c = (Except.error e, ⟨c.funcs, p⟩) := by
  simp only [Chain.Call, hf]
  rw [callFuncs_err pre c.values p hp g post e he]

/-! ### Fixtures for execution behaviour -/

def vW : Value := ⟨⟨2, "v"⟩, 7⟩

/-- Invocable that succeeds and produces `vW`. -/
def gOk : Func := ⟨0, [], ⟨2, "v"⟩, [], fun _ => ExecR.ok (some vW)⟩

/-- Invocable whose execution always fails. -/
def gBad : Func := ⟨1, [], ⟨3, "u"⟩, [], fun _ => ExecR.err "boom"⟩

def cErrChain : Mapper.Chain := ⟨[gOk, gBad], []⟩

/-- C2 counterexample: executing a chain whose second invocable fails
returns the error, yet the value produced by the first invocable
remains in the chain's value pool, which therefore is not left as it
was before Call began. -/
theorem chain_call_pool_not_restored :
    (Chain.Call cErrChain).1 = Except.error "boom" ∧
    (Chain.Call cErrChain).2.values = [vW] ∧
    (Chain.Call cErrChain).2.values ≠ cErrChain.values := by
  refine ⟨rfl, rfl, ?_⟩
  decide

theorem chain_call_error_keeps_partial_pool_witness :
    Chain.Call cErrChain = (Except.error "boom", ⟨cErrChain.funcs, [vW]⟩) :=
  chain_call_error_keeps_partial_pool cErrChain [gOk] gBad [] [vW] "boom" rfl rfl rfl

theorem chain_call_order_and_abort_witness :
    (Chain.Call cErrChain).1 = Except.error "boom" ∧
    (Chain.Call (⟨[gOk], []⟩ : Mapper.Chain)).1 = Except.ok (some vW) :=
  ⟨(chain_call_order_and_abort cErrChain).1 [gOk] gBad [] [vW] "boom" rfl rfl rfl,
   (chain_call_order_and_abort ⟨[gOk], []⟩).2 [] gOk [] (some vW) rfl rfl rfl⟩

/-! ### Unfolding lemmas for the fuelled search -/

theorem chainGo_succ (fuel : Nat) (f : Func) (values : List Value) (mappers chain : List Func)
    (cs pending : List Nat) :
    chainGo (fuel + 1) f values mappers chain cs pending =
      if (missingArgs f values).isEmpty then (Except.ok (chain ++ [f]), f.id :: cs)
      else missingLoop fuel (missingArgs f values) f values mappers chain cs (f.id :: pending) := by
  rw [chainGo]

theorem missingLoop_cons (fuel : Nat) (t : Ty) (rest : List Ty) (f : Func)
    (values : List Value) (mappers chain : List Func) (cs pending : List Nat) :
    missingLoop fuel (t :: rest) f values mappers chain cs pending =
      if (mappersFor mappers t.key).isEmpty then
        (Except.error ("unable to map to " ++ t.name), cs)
      else if (mappersFor mappers t.key).any (fun m => cs.contains m.id) then
        missingLoop fuel rest f values mappers chain cs pending
      else
        tryCands fuel (mappersFor mappers t.key) t rest f values mappers chain cs pending := by
  rw [missingLoop]

theorem tryCands_cons (fuel : Nat) (m : Func) (more : List Func) (t : Ty) (rest : List Ty)
    (f : Func) (values : List Value) (mappers chain : List Func) (cs pending : List Nat) :
    tryCands fuel (m :: more) t rest f values mappers chain cs pending =
      if pending.contains m.id then
        tryCands fuel more t rest f values mappers chain cs pending
      else
        match chainGo fuel m values mappers chain cs pending with
        | (Except.ok newChain, cs2) => missingLoop fuel rest f values mappers newChain cs2 pending
        | (Except.error _, cs2) => tryCands fuel more t rest f values mappers chain cs2 pending := by
  rw [tryCands]

/-! ### Failure always names a missing type of the failing consumer -/

theorem missingLoop_err_mem (fuel : Nat) :
    ∀ (missing : List Ty) (f : Func) (values : List Value) (mappers chain : List Func)
      (cs pending : List Nat), (∃ t ∈ missing, mappersFor mappers t.key = []) →
      ∃ u ∈ missing,
        (missingLoop fuel missing f values mappers chain cs pending).1 =
          Except.error ("unable to map to " ++ u.name) := by
  intro missing
  induction missing with
  | nil => intro f values mappers chain cs pending h; simp at h
  | cons t rest ih =>
    intro f values mappers chain cs pending h
    obtain ⟨t0, ht0, hprod⟩ := h
    rw [missingLoop_cons]
    by_cases hemp : (mappersFor mappers t.key).isEmpty = true
    · rw [if_pos hemp]
      exact ⟨t, List.mem_cons_self t rest, rfl⟩
    · have ht0r : t0 ∈ rest := by
        rcases List.mem_cons.mp ht0 with h1 | h1
        · subst h1; rw [hprod] at hemp; simp at hemp
        · exact h1
      rw [if_neg hemp]
      by_cases hcs : (mappersFor mappers t.key).any (fun m => cs.contains m.id) = true
      · rw [if_pos hcs]
        obtain ⟨u, hu, he⟩ := ih f values mappers chain cs pending ⟨t0, ht0r, hprod⟩
        exact ⟨u, List.mem_cons_of_mem t hu, he⟩
      · rw [if_neg hcs]
        have tc : ∀ (cands : List Func) (chain1 : List Func) (cs1 : List Nat),
            ∃ u ∈ t :: rest,
              (tryCands fuel cands t rest f values mappers chain1 cs1 pending).1 =
                Except.error ("unable to map to " ++ u.name) := by
          intro cands
          induction cands with
          | nil =>
            intro chain1 cs1
            exact ⟨t, List.mem_cons_self t rest, by rw [tryCands]⟩
          | cons m more ihc =>
            intro chain1 cs1
            rw [tryCands_cons]
            by_cases hpend : pending.contains m.id = true
            · rw [if_pos hpend]; exact ihc chain1 cs1
            · rw [if_neg hpend]
              rcases hcg : chainGo fuel m values mappers chain1 cs1 pending with ⟨r1, cs2⟩
              cases r1 with
              | ok newChain =>
                obtain ⟨u, hu, he⟩ := ih f values mappers newChain cs2 pending ⟨t0, ht0r, hprod⟩
                exact ⟨u, List.mem_cons_of_mem t hu, he⟩
              | error e =>
                obtain ⟨u, hu, he⟩ := ihc chain1 cs2
                exact ⟨u, hu, he⟩
        exact tc (mappersFor mappers t.key) chain cs

/-- C5 (amended): if some type in the target's missing-argument set
(against the augmented values) has no producing mapper in the library,
the chain builder returns an error rather than a chain, and the error
message names the display name of one of the target's missing types:
the first missing type whose resolution fails, which may differ from
the producer-less type itself when an earlier missing type also
fails. -/
theorem chain_unresolvable_missing_type (f : Func) (mappers : List Func)
    (values : List Value) (t : Ty)
    (hmem : t ∈ missingArgs f (values ++ f.boundValues))
    (hnoprod : mappersFor mappers t.key = []) :
    ∃ u ∈ missingArgs f (values ++ f.boundValues),
      Func.Chain f mappers values = Except.error ("unable to map to " ++ u.name) := by
  have hne : ¬((missingArgs f (values ++ f.boundValues)).isEmpty = true) := by
    intro h0
    rw [List.isEmpty_iff] at h0
    rw [h0] at hmem
    simp at hmem
  obtain ⟨u, hu, herr⟩ := missingLoop_err_mem (mappers.length + 1)
    (missingArgs f (values ++ f.boundValues)) f (values ++ f.boundValues) mappers
    [] [] [f.id] ⟨t, hmem, hnoprod⟩
  refine ⟨u, hu, ?_⟩
  have hcg : chainGo (chainFuel mappers) f (values ++ f.boundValues) mappers [] [] [] =
      missingLoop (mappers.length + 1) (missingArgs f (values ++ f.boundValues)) f
        (values ++ f.boundValues) mappers [] [] [f.id] := by
    rw [chainFuel]
    rw [chainGo_succ (mappers.length + 1)]
    rw [if_neg hne]
  simp only [Func.Chain]
  rw [if_neg hne]
  split
  · next funcs cs2 heq =>
    rw [hcg] at heq
    rw [heq] at herr
    simp at herr
  · next e cs2 heq =>
    rw [hcg] at heq
    rw [heq] at herr
    simpa using herr

def c5TyX : Ty := ⟨40, "x"⟩
def c5TyZ : Ty := ⟨41, "z"⟩
def c5TyW : Ty := ⟨42, "w"⟩

/-- Target requiring x and z. -/
def c5T : Func := ⟨0, [c5TyX, c5TyZ], ⟨43, "p"⟩, [], wNoExec⟩

/-- The only producer of x; its own requirement w has no producer. -/
def c5M1 : Func := ⟨1, [c5TyW], c5TyX, [], wNoExec⟩

/-- C5 counterexample: z is required by the target, has no producing
mapper in the library and is not covered by the values, yet the chain
builder's error names x, the earlier missing type whose candidates all
failed, not z. -/
theorem chain_error_names_other_type :
    c5TyZ ∈ missingArgs c5T ([] ++ c5T.boundValues) ∧
    mappersFor [c5M1] c5TyZ.key = [] ∧
    Func.Chain c5T [c5M1] [] = Except.error ("unable to map to " ++ c5TyX.name) ∧
    Except.error ("unable to map to " ++ c5TyX.name) ≠
      (Except.error ("unable to map to " ++ c5TyZ.name) : Except String Mapper.Chain) := by
  refine ⟨by decide, rfl, ?_, ?_⟩
  · simp [Func.Chain, chainGo, missingLoop, tryCands, missingArgs, dedupByKey, mappersFor,
      chainFuel, c5T, c5M1, c5TyX, c5TyZ, c5TyW]
  · intro h
    simp [c5TyX, c5TyZ] at h

def c5W : Func := ⟨0, [c5TyZ], ⟨44, "q"⟩, [], wNoExec⟩

theorem chain_unresolvable_missing_type_witness :
    ∃ u ∈ missingArgs c5W ([] ++ c5W.boundValues),
      Func.Chain c5W [] [] = Except.error ("unable to map to " ++ u.name) :=
  chain_unresolvable_missing_type c5W [] [] c5TyZ (by decide) rfl

/-! ### Termination on mutually recursive mapper requirements -/

/-- C6: for a library of two mappers A and B whose required inputs are
produced only by each other, with neither type covered by the
(augmented) values, the recursive search stops after the pending-set
guard skips A, with the same error for every amount of fuel beyond the
entry point's bound, and the chain builder returns that error. -/
theorem chain_cycle_terminates (ta tb : Ty) (A B : Func) (values : List Value)
    (hA : A.args = [tb]) (hAo : A.out = ta) (hB : B.args = [ta]) (hBo : B.out = tb)
    (hk : ta.key ≠ tb.key) (hid : A.id ≠ B.id)
    (hva : ∀ v ∈ values ++ A.boundValues, v.ty.key ≠ ta.key)
    (hvb : ∀ v ∈ values ++ A.boundValues, v.ty.key ≠ tb.key) :
    (∀ extra : Nat,
      (chainGo (4 + extra) A (values ++ A.boundValues) [A, B] [] [] []).1 =
        Except.error ("unable to map to " ++ tb.name)) ∧
    Func.Chain A [A, B] values = Except.error ("unable to map to " ++ tb.name) := by
  have hva1 : values.any (fun v => v.ty.key == ta.key) = false := by
    rw [List.any_eq_false]
    intro v hv
    simpa using hva v (by simp [hv])
  have hva2 : A.boundValues.any (fun v => v.ty.key == ta.key) = false := by
    rw [List.any_eq_false]
    intro v hv
    simpa using hva v (by simp [hv])
  have hvb1 : values.any (fun v => v.ty.key == tb.key) = false := by
    rw [List.any_eq_false]
    intro v hv
    simpa using hvb v (by simp [hv])
  have hvb2 : A.boundValues.any (fun v => v.ty.key == tb.key) = false := by
    rw [List.any_eq_false]
    intro v hv
    simpa using hvb v (by simp [hv])
  have hma : missingArgs A (values ++ A.boundValues) = [tb] := by
    simp [missingArgs, hA, hvb1, hvb2, dedupByKey]
  have hmb : missingArgs B (values ++ A.boundValues) = [ta] := by
    simp [missingArgs, hB, hva1, hva2, dedupByKey]
  have hfa : mappersFor [A, B] tb.key = [B] := by
    simp [mappersFor, hAo, hBo, hk]
  have hfb : mappersFor [A, B] ta.key = [A] := by
    simp [mappersFor, hAo, hBo, Ne.symm hk]
  have hinner : ∀ extra : Nat,
      chainGo (3 + extra) B (values ++ A.boundValues) [A, B] [] [] [A.id] =
        (Except.error ("unable to map to " ++ ta.name), []) := by
    intro extra
    have h3 : 3 + extra = (2 + extra) + 1 := by omega
    rw [h3, chainGo_succ, hmb]
    rw [if_neg (by simp)]
    rw [missingLoop_cons, hfb]
    rw [if_neg (by simp), if_neg (by simp)]
    rw [tryCands_cons]
    rw [if_pos (by simp)]
    rw [tryCands]
  have main : ∀ extra : Nat,
      (chainGo (4 + extra) A (values ++ A.boundValues) [A, B] [] [] []).1 =
        Except.error ("unable to map to " ++ tb.name) := by
    intro extra
    have h4 : 4 + extra = (3 + extra) + 1 := by omega
    rw [h4, chainGo_succ, hma]
    rw [if_neg (by simp)]
    rw [missingLoop_cons, hfa]
    rw [if_neg (by simp), if_neg (by simp)]
    rw [tryCands_cons]
    rw [if_neg (by simp [Ne.symm hid])]
    simp only [hinner extra]
    rw [tryCands]
  refine ⟨main, ?_⟩
  simp only [Func.Chain]
  rw [if_neg (by rw [hma]; simp)]
  have hfuel : chainFuel [A, B] = 4 + 0 := rfl
  split
  · next funcs cs2 heq =>
    rw [hfuel] at heq
    have h0 := main 0
    rw [heq] at h0
    simp at h0
  · next e cs2 heq =>
    rw [hfuel] at heq
    have h0 := main 0
    rw [heq] at h0
    simpa using h0

def c6TyA : Ty := ⟨50, "ca"⟩
def c6TyB : Ty := ⟨51, "cb"⟩
def c6A : Func := ⟨1, [c6TyB], c6TyA, [], wNoExec⟩
def c6B : Func := ⟨2, [c6TyA], c6TyB, [], wNoExec⟩

theorem chain_cycle_terminates_witness :
    (∀ extra : Nat,
      (chainGo (4 + extra) c6A ([] ++ c6A.boundValues) [c6A, c6B] [] [] []).1 =
        Except.error ("unable to map to " ++ c6TyB.name)) ∧
    Func.Chain c6A [c6A, c6B] [] = Except.error ("unable to map to " ++ c6TyB.name) :=
  chain_cycle_terminates c6TyA c6TyB c6A c6B [] rfl rfl rfl rfl (by decide) (by decide)
    (by simp [c6A]) (by simp [c6A])

theorem chainTarget_first_in_order_witness :
    ChainTarget (fun u => u.key == 1) [wLeaf] [] =
      (([wLeaf].find? (fun m =>
          (fun u => u.key == 1) m.out && isOkE (m.Chain [wLeaf] []))).bind
        (fun m => (m.Chain [wLeaf] []).toOption)) :=
  (chainTarget_first_in_order (fun u => u.key == 1) [wLeaf] []).1

/-! ### Derivability along mapper paths that avoid a set of identities

`Der mappers ks P k` holds when output key `k` can be produced by a
mapper whose identity avoids `P`, each of whose argument keys is either
in the leaf set `ks` or derivable while additionally avoiding that
mapper; such derivations correspond to acyclic search paths. -/

inductive Der (mappers : List Func) (ks : Nat → Prop) : List Nat → Nat → Prop where
  | mk : ∀ (P : List Nat) (k : Nat) (m : Func), m ∈ mappers → m.id ∉ P → m.out.key = k →
      (∀ a ∈ m.args, ¬ ks a.key → Der mappers ks (m.id :: P) a.key) → Der mappers ks P k

/-- Keys of a list of types. -/
def tyKeys (ts : List Ty) : List Nat := ts.map Ty.key

theorem Der_mono_ks (mappers : List Func) (ks ks2 : Nat → Prop)
    (hks : ∀ k, ks k → ks2 k) :
    ∀ P k, Der mappers ks P k → Der mappers ks2 P k := by
  intro P k h
  induction h with
  | mk P k m hmem hnot hout hargs ih =>
    exact Der.mk P k m hmem hnot hout (fun a ha hk2 =>
      ih a ha (fun hk => hk2 (hks a.key hk)))

theorem Der_anti (mappers : List Func) (ks : Nat → Prop) :
    ∀ P k, Der mappers ks P k → ∀ P2, (∀ x ∈ P2, x ∈ P) → Der mappers ks P2 k := by
  intro P k h
  induction h with
  | mk P k m hmem hnot hout hargs ih =>
    intro P2 hsub
    refine Der.mk P2 k m hmem (fun hx => hnot (hsub m.id hx)) hout ?_
    intro a ha hk
    refine ih a ha hk (m.id :: P2) ?_
    intro x hx
    rcases List.mem_cons.mp hx with h1 | h1
    · exact h1 ▸ List.mem_cons_self m.id P
    · exact List.mem_cons_of_mem m.id (hsub x h1)

/-- Any derivation avoiding `P` either already avoids `i` as well, or
it passes through a mapper of identity `i`, whose own requirements
then have derivations avoiding `i`. -/
theorem Der_patch (mappers : List Func) (ks : Nat → Prop) (i : Nat) :
    ∀ P k, Der mappers ks P k →
      Der mappers ks (i :: P) k ∨
      (∃ m ∈ mappers, m.id = i ∧
        ∀ b ∈ m.args, ¬ ks b.key → Der mappers ks (i :: P) b.key) := by
  intro P k h
  induction h with
  | mk P k m hmem hnot hout hargs ih =>
    by_cases hmi : m.id = i
    · exact Or.inr ⟨m, hmem, hmi, fun b hb hk => hmi ▸ hargs b hb hk⟩
    · by_cases hall : ∀ a ∈ m.args, ¬ ks a.key → Der mappers ks (i :: m.id :: P) a.key
      · refine Or.inl (Der.mk (i :: P) k m hmem ?_ hout ?_)
        · intro hx
          rcases List.mem_cons.mp hx with h1 | h1
          · exact hmi h1
          · exact hnot h1
        · intro a ha hk
          refine Der_anti mappers ks (i :: m.id :: P) a.key (hall a ha hk)
            (m.id :: i :: P) ?_
          intro x hx
          simp only [List.mem_cons] at hx ⊢
          tauto
      · push_neg at hall
        obtain ⟨a, ha, hk, hnd⟩ := hall
        rcases ih a ha hk with h1 | h1
        · exact absurd (Der_anti mappers ks (i :: m.id :: P) a.key h1
            (i :: m.id :: P) (fun x hx => hx)) hnd
        · obtain ⟨m2, hm2, hid2, hb2⟩ := h1
          refine Or.inr ⟨m2, hm2, hid2, ?_⟩
          intro b hb hkb
          refine Der_anti mappers ks (i :: m.id :: P) b.key (hb2 b hb hkb) (i :: P) ?_
          intro x hx
          simp only [List.mem_cons] at hx ⊢
          tauto

/-! ### Soundness of the input-set search -/

theorem keyInTys_iff (k : Nat) (ts : List Ty) :
    keyInTys k ts = true ↔ ∃ u ∈ ts, u.key = k := by
  simp [keyInTys, List.any_eq_true]

theorem natContains_iff (l : List Nat) (a : Nat) : l.contains a = true ↔ a ∈ l := by
  simp

theorem tyKeys_sub {A B : List Ty} (h : ∀ t ∈ A, t ∈ B) :
    ∀ k ∈ tyKeys A, k ∈ tyKeys B := by
  intro k hk
  simp only [tyKeys, List.mem_map] at hk ⊢
  obtain ⟨u, hu, rfl⟩ := hk
  exact ⟨u, h u hu, rfl⟩

theorem tyKeys_mem_iff (k : Nat) (ts : List Ty) :
    k ∈ tyKeys ts ↔ ∃ u ∈ ts, u.key = k := by
  simp only [tyKeys, List.mem_map]

theorem argScan_spec (check : Ty → Bool) :
    ∀ (args missing pending missing2 pending2 : List Ty),
      argScan args check missing pending = (missing2, pending2) →
      (∀ t ∈ pending, t ∈ pending2) ∧
      (∀ t ∈ missing, t ∈ missing2) ∧
      (∀ t ∈ pending2, t ∈ pending ∨ check t = true) ∧
      (∀ a ∈ args, a.key ∈ tyKeys pending2 ∨ ∃ u ∈ missing2, u.key = a.key) := by
  intro args
  induction args with
  | nil =>
    intro missing pending m2 p2 h
    simp only [argScan, Prod.mk.injEq] at h
    obtain ⟨h1, h2⟩ := h
    subst h1; subst h2
    exact ⟨fun t ht => ht, fun t ht => ht, fun t ht => Or.inl ht, by simp⟩
  | cons a rest ih =>
    intro missing pending m2 p2 h
    simp only [argScan] at h
    split at h
    · next hkey =>
      obtain ⟨hp, hm, hc, ha⟩ := ih missing pending m2 p2 h
      refine ⟨hp, hm, hc, ?_⟩
      intro b hb
      rcases List.mem_cons.mp hb with h1 | h1
      · subst h1
        obtain ⟨u, hu, hk⟩ := (keyInTys_iff b.key pending).mp hkey
        exact Or.inl ((tyKeys_mem_iff b.key p2).mpr ⟨u, hp u hu, hk⟩)
      · exact ha b h1
    · next hkey =>
      split at h
      · next hchk =>
        by_cases hmm : keyInTys a.key missing = true
        · rw [if_pos hmm] at h
          obtain ⟨hp, hm, hc, ha⟩ := ih missing pending m2 p2 h
          refine ⟨hp, hm, hc, ?_⟩
          intro b hb
          rcases List.mem_cons.mp hb with h1 | h1
          · subst h1
            obtain ⟨u, hu, hk⟩ := (keyInTys_iff b.key missing).mp hmm
            exact Or.inr ⟨u, hm u hu, hk⟩
          · exact ha b h1
        · rw [if_neg hmm] at h
          obtain ⟨hp, hm, hc, ha⟩ := ih (missing ++ [a]) pending m2 p2 h
          refine ⟨hp, fun t ht => hm t (by simp [ht]), hc, ?_⟩
          intro b hb
          rcases List.mem_cons.mp hb with h1 | h1
          · subst h1
            exact Or.inr ⟨b, hm b (by simp), rfl⟩
          · exact ha b h1
      · next hchk =>
        obtain ⟨hp, hm, hc, ha⟩ := ih missing (pending ++ [a]) m2 p2 h
        have hca : check a = true := by
          simp only [Bool.not_eq_true'] at hchk
          simpa using hchk
        refine ⟨fun t ht => hp t (by simp [ht]), hm, ?_, ?_⟩
        · intro t ht
          rcases hc t ht with h1 | h1
          · rcases List.mem_append.mp h1 with h2 | h2
            · exact Or.inl h2
            · simp only [List.mem_singleton] at h2
              subst h2
              exact Or.inr hca
          · exact Or.inr h1
        · intro b hb
          rcases List.mem_cons.mp hb with h1 | h1
          · subst h1
            exact Or.inl ((tyKeys_mem_iff b.key p2).mpr ⟨b, hp b (by simp), rfl⟩)
          · exact ha b h1

theorem mapperLoop_sound (fuel : Nat) (mappers : List Func) (check : Ty → Bool)
    (ihIn : ∀ (g : Func) (V : List Nat) (input R : List Ty),
      inputSetGo fuel g mappers check V input = some R →
      (∀ t ∈ input, t ∈ R) ∧ (∀ t ∈ R, t ∈ input ∨ check t = true) ∧
      (∀ a ∈ g.args, a.key ∈ tyKeys R ∨ Der mappers (fun k => k ∈ tyKeys R) V a.key)) :
    ∀ (ms : List Func), (∀ x ∈ ms, x ∈ mappers) →
      ∀ (f0 : Func) (V : List Nat) (missing pending R : List Ty),
        mapperLoop fuel ms f0 mappers check V missing pending = some R →
        (∀ t ∈ pending, t ∈ R) ∧ (∀ t ∈ R, t ∈ pending ∨ check t = true) ∧
        (∀ t ∈ missing, Der mappers (fun k => k ∈ tyKeys R) V t.key) := by
  intro ms
  induction ms with
  | nil =>
    intro hsub f0 V missing pending R h
    simp [mapperLoop] at h
  | cons m rest ih =>
    intro hsub f0 V missing pending R h
    have hsub2 : ∀ x ∈ rest, x ∈ mappers := fun x hx => hsub x (List.mem_cons_of_mem m hx)
    have hmmem : m ∈ mappers := hsub m (List.mem_cons_self m rest)
    simp only [mapperLoop] at h
    split at h
    · exact ih hsub2 f0 V missing pending R h
    · next hvis =>
      split at h
      · exact ih hsub2 f0 V missing pending R h
      · next hout =>
        have hVm : m.id ∉ V := by
          intro hx
          exact hvis ((natContains_iff V m.id).mpr hx)
        split at h
        · next heq => exact ih hsub2 f0 V missing pending R h
        · next result_i heq =>
          obtain ⟨hiA, hiB, hiC⟩ := ihIn m (m.id :: V) pending result_i heq
          split at h
          · next hre =>
            simp only [Option.some.injEq] at h
            subst h
            have hfe : ∀ t ∈ missing, t.key = m.out.key := by
              rw [List.isEmpty_iff, List.filter_eq_nil_iff] at hre
              intro t ht
              have := hre t ht
              simpa using this
            refine ⟨hiA, hiB, ?_⟩
            intro t ht
            refine Der.mk V t.key m hmmem hVm ((hfe t ht).symm) ?_
            intro a ha hka
            rcases hiC a ha with h1 | h1
            · exact absurd h1 hka
            · exact h1
          · next hre =>
            obtain ⟨hlA, hlB, hlC⟩ := ih hsub2 f0 V
              (missing.filter (fun t => t.key != m.out.key)) result_i R h
            have hsubR : ∀ t ∈ result_i, t ∈ R := hlA
            refine ⟨fun t ht => hsubR t (hiA t ht), ?_, ?_⟩
            · intro t ht
              rcases hlB t ht with h1 | h1
              · exact hiB t h1
              · exact Or.inr h1
            · intro t ht
              by_cases hkey : t.key = m.out.key
              · refine Der.mk V t.key m hmmem hVm hkey.symm ?_
                intro a ha hka
                rcases hiC a ha with h1 | h1
                · exact absurd (tyKeys_sub hsubR a.key h1) hka
                · exact Der_mono_ks mappers (fun k => k ∈ tyKeys result_i)
                    (fun k => k ∈ tyKeys R) (tyKeys_sub hsubR) (m.id :: V) a.key h1
              · refine hlC t ?_
                simp only [List.mem_filter]
                exact ⟨ht, by simpa using hkey⟩

theorem inputSetGo_sound : ∀ (fuel : Nat) (mappers : List Func) (check : Ty → Bool)
    (f : Func) (V : List Nat) (input R : List Ty),
    inputSetGo fuel f mappers check V input = some R →
    (∀ t ∈ input, t ∈ R) ∧ (∀ t ∈ R, t ∈ input ∨ check t = true) ∧
    (∀ a ∈ f.args, a.key ∈ tyKeys R ∨ Der mappers (fun k => k ∈ tyKeys R) V a.key) := by
  intro fuel
  induction fuel with
  | zero =>
    intro mappers check f V input R h
    simp [inputSetGo] at h
  | succ n ihf =>
    intro mappers check f V input R h
    rcases hAS : argScan f.args check [] input with ⟨missing, pending⟩
    simp only [inputSetGo, hAS] at h
    obtain ⟨hp, _, hc, ha⟩ := argScan_spec check f.args [] input missing pending hAS
    split at h
    · next hemp =>
      simp only [Option.some.injEq] at h
      subst h
      have hmz : missing = [] := List.isEmpty_iff.mp hemp
      refine ⟨hp, hc, ?_⟩
      intro a haa
      rcases ha a haa with h1 | h1
      · exact Or.inl h1
      · rw [hmz] at h1
        simp at h1
    · obtain ⟨hlA, hlB, hlC⟩ := mapperLoop_sound n mappers check
        (ihf mappers check) mappers (fun x hx => hx) f V missing pending R h
      refine ⟨fun t ht => hlA t (hp t ht), ?_, ?_⟩
      · intro t ht
        rcases hlB t ht with h1 | h1
        · exact hc t h1
        · exact Or.inr h1
      · intro a haa
        rcases ha a haa with h1 | h1
        · exact Or.inl (tyKeys_sub hlA a.key h1)
        · obtain ⟨u, hu, hk⟩ := h1
          exact Or.inr (hk ▸ hlC u hu)

/-! ### Completeness of the chain search along avoiding derivations -/

/-- Number of library mappers whose identity is not in `P`; the
recursion depth of the chain search is bounded by it. -/
def notPendingCount (mappers : List Func) (P : List Nat) : Nat :=
  (mappers.filter (fun m => !(P.contains m.id))).length

theorem filter_length_mono (p q : Func → Bool) (h : ∀ x, q x = true → p x = true) :
    ∀ l : List Func, (l.filter q).length ≤ (l.filter p).length := by
  intro l
  induction l with
  | nil => simp
  | cons x xs ih =>
    by_cases hq : q x = true
    · rw [List.filter_cons_of_pos hq, List.filter_cons_of_pos (h x hq)]
      simpa using ih
    · rw [List.filter_cons_of_neg (by simpa using hq)]
      by_cases hp : p x = true
      · rw [List.filter_cons_of_pos hp]
        exact Nat.le_succ_of_le ih
      · rw [List.filter_cons_of_neg (by simpa using hp)]
        exact ih

theorem contains_cons_mono (P : List Nat) (i : Nat) :
    ∀ x : Func, (!((i :: P).contains x.id)) = true → (!(P.contains x.id)) = true := by
  intro x hx
  simp only [List.contains_cons, Bool.not_eq_true', Bool.or_eq_false_iff] at hx
  simp only [Bool.not_eq_true']
  exact hx.2

theorem notPendingCount_lt (mappers : List Func) (P : List Nat) (m : Func)
    (hm : m ∈ mappers) (hP : P.contains m.id = false) :
    notPendingCount mappers (m.id :: P) < notPendingCount mappers P := by
  unfold notPendingCount
  induction mappers with
  | nil => simp at hm
  | cons x xs ih =>
    rcases List.mem_cons.mp hm with h1 | h1
    · subst h1
      simp only [List.filter_cons]
      rw [if_neg (by simp), if_pos (by simp only [Bool.not_eq_true']; exact hP)]
      simp only [List.length_cons]
      exact Nat.lt_succ_of_le (filter_length_mono _ _ (contains_cons_mono P m.id) xs)
    · have hlt := ih h1
      simp only [List.filter_cons]
      by_cases hq : (!((m.id :: P).contains x.id)) = true
      · rw [if_pos hq, if_pos (contains_cons_mono P m.id x hq)]
        simp only [List.length_cons]
        omega
      · rw [if_neg hq]
        by_cases hp : (!(P.contains x.id)) = true
        · rw [if_pos hp]
          simp only [List.length_cons]
          omega
        · rw [if_neg hp]
          exact hlt

theorem dedupByKey_sub : ∀ (l : List Ty), ∀ t ∈ dedupByKey l, t ∈ l := by
  intro l
  induction l with
  | nil => simp [dedupByKey]
  | cons a rest ih =>
    intro t ht
    simp only [dedupByKey, List.mem_cons] at ht
    rcases ht with h1 | h1
    · simp [h1]
    · exact List.mem_cons_of_mem a (ih t (List.mem_of_mem_filter h1))

theorem mem_missingArgs (f : Func) (values : List Value) (t : Ty)
    (h : t ∈ missingArgs f values) :
    t ∈ f.args ∧ ¬∃ v ∈ values, v.ty.key = t.key := by
  have h2 := dedupByKey_sub _ t h
  refine ⟨List.mem_of_mem_filter h2, ?_⟩
  have h4 := List.of_mem_filter h2
  rintro ⟨v, hv, hkv⟩
  simp only [Bool.not_eq_true', List.any_eq_false] at h4
  exact absurd (by simp [hkv]) (h4 v hv)

theorem missingLoop_complete (fuel : Nat) (values : List Value) (mappers : List Func)
    (pending1 : List Nat)
    (hfuel : notPendingCount mappers pending1 ≤ fuel)
    (ihGo : ∀ (g : Func) (chain : List Func) (cs : List Nat),
      notPendingCount mappers (g.id :: pending1) + 1 ≤ fuel →
      (∀ t ∈ missingArgs g values,
        Der mappers (fun k => ∃ v ∈ values, v.ty.key = k) (g.id :: pending1) t.key) →
      ∃ l cs2, chainGo fuel g values mappers chain cs pending1 = (Except.ok l, cs2)) :
    ∀ (missing : List Ty) (f : Func) (chain : List Func) (cs : List Nat),
      (∀ t ∈ missing, Der mappers (fun k => ∃ v ∈ values, v.ty.key = k) pending1 t.key) →
      ∃ l cs2, missingLoop fuel missing f values mappers chain cs pending1 =
        (Except.ok l, cs2) := by
  intro missing
  induction missing with
  | nil =>
    intro f chain cs hder
    exact ⟨chain ++ [f], cs, by rw [missingLoop]⟩
  | cons t rest ih =>
    intro f chain cs hder
    have hd := hder t (List.mem_cons_self t rest)
    cases hd with
    | mk _ _ m hmem hnot hout hargs =>
    have hmcand : m ∈ mappersFor mappers t.key := by
      simp only [mappersFor, List.mem_filter]
      exact ⟨hmem, by simp [hout]⟩
    have hderR : ∀ u ∈ rest,
        Der mappers (fun k => ∃ v ∈ values, v.ty.key = k) pending1 u.key :=
      fun u hu => hder u (List.mem_cons_of_mem t hu)
    rw [missingLoop_cons]
    rw [if_neg (by simp [List.isEmpty_iff]; exact List.ne_nil_of_mem hmcand)]
    by_cases hcs : (mappersFor mappers t.key).any (fun m2 => cs.contains m2.id) = true
    · rw [if_pos hcs]
      exact ih f chain cs hderR
    · rw [if_neg hcs]
      have hPf : pending1.contains m.id = false := by
        cases hv : pending1.contains m.id
        · rfl
        · exact absurd ((natContains_iff pending1 m.id).mp hv) hnot
      have hmGo : ∀ (chain2 : List Func) (cs2 : List Nat), ∃ l cs3,
          chainGo fuel m values mappers chain2 cs2 pending1 = (Except.ok l, cs3) := by
        intro chain2 cs2
        refine ihGo m chain2 cs2 ?_ ?_
        · have := notPendingCount_lt mappers pending1 m hmem hPf
          omega
        · intro t2 ht2
          obtain ⟨ht2a, ht2c⟩ := mem_missingArgs m values t2 ht2
          exact hargs t2 ht2a ht2c
      have hml : ∀ (chain2 : List Func) (cs2 : List Nat), ∃ l cs3,
          missingLoop fuel rest f values mappers chain2 cs2 pending1 =
            (Except.ok l, cs3) :=
        fun chain2 cs2 => ih f chain2 cs2 hderR
      have htc : ∀ (cands : List Func), m ∈ cands →
          ∀ (chain2 : List Func) (cs2 : List Nat), ∃ l cs3,
            tryCands fuel cands t rest f values mappers chain2 cs2 pending1 =
              (Except.ok l, cs3) := by
        intro cands
        induction cands with
        | nil => intro hx; simp at hx
        | cons m1 more ihc =>
          intro hx chain2 cs2
          rw [tryCands_cons]
          by_cases hp1 : pending1.contains m1.id = true
          · rw [if_pos hp1]
            have hm_more : m ∈ more := by
              rcases List.mem_cons.mp hx with h1 | h1
              · subst h1
                rw [hPf] at hp1
                exact absurd hp1 (by simp)
              · exact h1
            exact ihc hm_more chain2 cs2
          · rw [if_neg hp1]
            rcases hcg : chainGo fuel m1 values mappers chain2 cs2 pending1 with ⟨r1, cs4⟩
            cases r1 with
            | ok nc =>
              obtain ⟨l, cs3, hl⟩ := hml nc cs4
              exact ⟨l, cs3, hl⟩
            | error e =>
              by_cases hmeq : m1 = m
              · subst hmeq
                obtain ⟨l, cs3, hgo⟩ := hmGo chain2 cs2
                rw [hgo] at hcg
                simp at hcg
              · have hm_more : m ∈ more := by
                  rcases List.mem_cons.mp hx with h1 | h1
                  · exact absurd h1.symm hmeq
                  · exact h1
                obtain ⟨l, cs3, hl⟩ := ihc hm_more chain2 cs4
                exact ⟨l, cs3, hl⟩
      exact htc (mappersFor mappers t.key) hmcand chain cs

theorem chainGo_complete : ∀ (fuel : Nat) (f : Func) (values : List Value)
    (mappers chain : List Func) (cs pending : List Nat),
    notPendingCount mappers (f.id :: pending) + 1 ≤ fuel →
    (∀ t ∈ missingArgs f values,
      Der mappers (fun k => ∃ v ∈ values, v.ty.key = k) (f.id :: pending) t.key) →
    ∃ l cs2, chainGo fuel f values mappers chain cs pending = (Except.ok l, cs2) := by
  intro fuel
  induction fuel with
  | zero =>
    intro f values mappers chain cs pending hfuel hder
    omega
  | succ n ihf =>
    intro f values mappers chain cs pending hfuel hder
    rw [chainGo_succ]
    by_cases hemp : (missingArgs f values).isEmpty = true
    · rw [if_pos hemp]
      exact ⟨chain ++ [f], f.id :: cs, rfl⟩
    · rw [if_neg hemp]
      refine missingLoop_complete n values mappers (f.id :: pending) (by omega)
        (fun g chain2 cs2 hf2 hder2 =>
          ihf g values mappers chain2 cs2 (f.id :: pending) hf2 hder2)
        (missingArgs f values) f chain cs hder

/-! ### The input set guarantees a buildable chain -/

theorem chainInputSet_chain_ok (f : Func) (mappers : List Func) (check : Ty → Bool)
    (R : List Ty) (hR : Func.ChainInputSet f mappers check = some R)
    (hinj : ∀ m ∈ mappers, m.id = f.id → m = f)
    (values : List Value) (hcov : ∀ t ∈ R, ∃ v ∈ values, v.ty.key = t.key) :
    ∃ c, Func.Chain f mappers values = Except.ok c := by
  obtain ⟨hA, hB, hC⟩ := inputSetGo_sound (inputFuel mappers) mappers check f [] [] R hR
  have hcov2 : ∀ t ∈ R, ∃ v ∈ values ++ f.boundValues, v.ty.key = t.key := by
    intro t ht
    obtain ⟨v, hv, hkv⟩ := hcov t ht
    exact ⟨v, by simp [hv], hkv⟩
  have hnotR : ∀ t ∈ missingArgs f (values ++ f.boundValues), ¬(t.key ∈ tyKeys R) := by
    intro t ht hk
    obtain ⟨u, hu, hku⟩ := (tyKeys_mem_iff t.key R).mp hk
    obtain ⟨v, hv, hkv⟩ := hcov2 u hu
    exact (mem_missingArgs f (values ++ f.boundValues) t ht).2 ⟨v, hv, by rw [hkv, hku]⟩
  have base : ∀ t ∈ missingArgs f (values ++ f.boundValues),
      Der mappers (fun k => k ∈ tyKeys R) [] t.key := by
    intro t ht
    rcases hC t (mem_missingArgs f (values ++ f.boundValues) t ht).1 with h1 | h1
    · exact absurd h1 (hnotR t ht)
    · exact h1
  have hmain : ∀ t ∈ missingArgs f (values ++ f.boundValues),
      Der mappers (fun k => k ∈ tyKeys R) [f.id] t.key := by
    intro t ht
    rcases Der_patch mappers (fun k => k ∈ tyKeys R) f.id [] t.key (base t ht) with h1 | h1
    · exact h1
    · obtain ⟨m, hm, hid, hb⟩ := h1
      have hmf : m = f := hinj m hm hid
      rw [hmf] at hb
      exact hb t (mem_missingArgs f (values ++ f.boundValues) t ht).1 (hnotR t ht)
  have hmain2 : ∀ t ∈ missingArgs f (values ++ f.boundValues),
      Der mappers (fun k => ∃ v ∈ values ++ f.boundValues, v.ty.key = k) [f.id] t.key := by
    intro t ht
    refine Der_mono_ks mappers (fun k => k ∈ tyKeys R)
      (fun k => ∃ v ∈ values ++ f.boundValues, v.ty.key = k) ?_ [f.id] t.key (hmain t ht)
    intro k hk
    obtain ⟨u, hu, hku⟩ := (tyKeys_mem_iff k R).mp hk
    obtain ⟨v, hv, hkv⟩ := hcov2 u hu
    exact ⟨v, hv, by rw [hkv, hku]⟩
  by_cases hemp : (missingArgs f (values ++ f.boundValues)).isEmpty = true
  · refine ⟨⟨[f], values ++ f.boundValues⟩, ?_⟩
    simp only [Func.Chain]
    rw [if_pos hemp]
  · have hcnt : notPendingCount mappers (f.id :: []) + 1 ≤ chainFuel mappers := by
      have h1 : notPendingCount mappers [f.id] ≤ mappers.length :=
        List.length_filter_le _ _
      simp only [chainFuel]
      omega
    obtain ⟨l, cs2, hgo⟩ := chainGo_complete (chainFuel mappers) f
      (values ++ f.boundValues) mappers [] [] [] hcnt hmain2
    refine ⟨⟨l, values ++ f.boundValues⟩, ?_⟩
    simp only [Func.Chain]
    rw [if_neg hemp, hgo]

/-! ### Graded satisfiability: a type is satisfiable when the check
holds for it, or some mapper produces its key from satisfiable
arguments; the grading by depth makes every satisfiability derivation
finite and hence acyclic -/

def canSatN (mappers : List Func) (check : Ty → Bool) : Nat → Ty → Bool
  | 0, _ => false
  | n + 1, t =>
    check t ||
      mappers.any (fun m =>
        (m.out.key == t.key) && m.args.all (fun a => canSatN mappers check n a))

theorem canSatN_succ_mono (mappers : List Func) (check : Ty → Bool) :
    ∀ (n : Nat) (t : Ty), canSatN mappers check n t = true →
      canSatN mappers check (n + 1) t = true := by
  intro n
  induction n with
  | zero => intro t h; simp [canSatN] at h
  | succ n0 ih =>
    intro t h
    simp only [canSatN, Bool.or_eq_true, List.any_eq_true] at h ⊢
    rcases h with h | ⟨m, hm, hmb⟩
    · exact Or.inl h
    · simp only [Bool.and_eq_true, List.all_eq_true] at hmb ⊢
      exact Or.inr ⟨m, hm, hmb.1, fun a ha => ih a (hmb.2 a ha)⟩

theorem canSatN_le_mono (mappers : List Func) (check : Ty → Bool) (n k : Nat)
    (hle : n ≤ k) (t : Ty) (h : canSatN mappers check n t = true) :
    canSatN mappers check k t = true := by
  obtain ⟨d, rfl⟩ := Nat.exists_eq_add_of_le hle
  clear hle
  induction d with
  | zero => exact h
  | succ d0 ih =>
    exact canSatN_succ_mono mappers check (n + d0) t ih

theorem exists_uniform_canSatN (mappers : List Func) (check : Ty → Bool) :
    ∀ (l : List Ty), (∀ a ∈ l, ∃ n, canSatN mappers check n a = true) →
      ∃ N, ∀ a ∈ l, canSatN mappers check N a = true := by
  intro l
  induction l with
  | nil => intro h; exact ⟨0, by simp⟩
  | cons a rest ih =>
    intro h
    obtain ⟨n1, hn1⟩ := h a (List.mem_cons_self a rest)
    obtain ⟨N, hN⟩ := ih (fun b hb => h b (List.mem_cons_of_mem a hb))
    refine ⟨max n1 N, ?_⟩
    intro b hb
    rcases List.mem_cons.mp hb with h1 | h1
    · exact h1 ▸ canSatN_le_mono mappers check n1 (max n1 N) (Nat.le_max_left n1 N) b
        (h1 ▸ hn1)
    · exact canSatN_le_mono mappers check N (max n1 N) (Nat.le_max_right n1 N) b (hN b h1)

theorem Der_to_canSat (mappers : List Func) (check : Ty → Bool) (ks : Nat → Prop)
    (hks : ∀ k, ks k → ∀ u : Ty, u.key = k → ∃ n, canSatN mappers check n u = true) :
    ∀ P k, Der mappers ks P k → ∀ u : Ty, u.key = k →
      ∃ n, canSatN mappers check n u = true := by
  intro P k h
  induction h with
  | mk P k m hm hnot hout hargs ih =>
    intro u hu
    have hall : ∀ a ∈ m.args, ∃ n, canSatN mappers check n a = true := by
      intro a ha
      by_cases hka : ks a.key
      · exact hks a.key hka a rfl
      · exact ih a ha hka a rfl
    obtain ⟨N, hN⟩ := exists_uniform_canSatN mappers check m.args hall
    refine ⟨N + 1, ?_⟩
    simp only [canSatN, Bool.or_eq_true, List.any_eq_true]
    right
    refine ⟨m, hm, ?_⟩
    simp only [Bool.and_eq_true, List.all_eq_true, beq_iff_eq]
    exact ⟨by rw [hout, hu], hN⟩

/-- A minimal finite satisfiability derivation never revisits a mapper
along a path, so it yields a path-avoiding derivation: the stack
invariant records, for each excluded identity, a goal type none of
whose derivations are smaller than the current one. -/
theorem canSatN_to_Der (mappers : List Func) (check : Ty → Bool)
    (hinj2 : ∀ m1 ∈ mappers, ∀ m2 ∈ mappers, m1.id = m2.id → m1 = m2) :
    ∀ (n : Nat) (t : Ty) (P : List Nat),
      canSatN mappers check n t = true →
      (∀ k, canSatN mappers check k t = true → n ≤ k) →
      (∀ i ∈ P, ∃ m ∈ mappers, m.id = i ∧ ∃ b ∈ m.args,
        ∀ k, canSatN mappers check k b = true → n ≤ k) →
      check t = true ∨
        Der mappers (fun k => ∃ u : Ty, u.key = k ∧ check u = true) P t.key := by
  intro n
  induction n using Nat.strong_induction_on with
  | _ n ih =>
    intro t P hsat hmin hinv
    cases n with
    | zero => simp [canSatN] at hsat
    | succ n0 =>
      by_cases hchk : check t = true
      · exact Or.inl hchk
      · right
        simp only [canSatN, hchk, Bool.false_or, List.any_eq_true] at hsat
        obtain ⟨m, hm, hmb⟩ := hsat
        simp only [Bool.and_eq_true, List.all_eq_true, beq_iff_eq] at hmb
        obtain ⟨hout, hall⟩ := hmb
        have hnotP : m.id ∉ P := by
          intro hiP
          obtain ⟨m2, hm2, hid2, b, hb, hminb⟩ := hinv m.id hiP
          have hm2m : m2 = m := hinj2 m2 hm2 m hm hid2
          subst hm2m
          have := hminb n0 (hall b hb)
          omega
        refine Der.mk P t.key m hm hnotP hout ?_
        intro a ha hka
        have hsa : canSatN mappers check n0 a = true := hall a ha
        have hex : ∃ k, canSatN mappers check k a = true := ⟨n0, hsa⟩
        have hna_le : Nat.find hex ≤ n0 := Nat.find_min' hex hsa
        have hinv2 : ∀ i ∈ (m.id :: P), ∃ m2 ∈ mappers, m2.id = i ∧ ∃ b ∈ m2.args,
            ∀ k, canSatN mappers check k b = true → Nat.find hex ≤ k := by
          intro i hi
          rcases List.mem_cons.mp hi with h1 | h1
          · exact ⟨m, hm, h1.symm, a, ha, fun k hk => Nat.find_min' hex hk⟩
          · obtain ⟨m2, hm2, hid2, b, hb, hminb⟩ := hinv i h1
            refine ⟨m2, hm2, hid2, b, hb, fun k hk => ?_⟩
            have := hminb k hk
            omega
        rcases ih (Nat.find hex) (by omega) a (m.id :: P) (Nat.find_spec hex)
          (fun k hk => Nat.find_min' hex hk) hinv2 with h1 | h1
        · exact absurd ⟨a, rfl, h1⟩ hka
        · exact h1

/-! ### Completeness of the input-set search -/

theorem argScan_missing (check : Ty → Bool) :
    ∀ (args missing pending m2 p2 : List Ty),
      argScan args check missing pending = (m2, p2) →
      ∀ t ∈ m2, t ∈ missing ∨
        (t ∈ args ∧ check t = false ∧ keyInTys t.key pending = false) := by
  intro args
  induction args with
  | nil =>
    intro missing pending m2 p2 h t ht
    simp only [argScan, Prod.mk.injEq] at h
    obtain ⟨h1, h2⟩ := h
    subst h1
    exact Or.inl ht
  | cons a rest ih =>
    intro missing pending m2 p2 h t ht
    simp only [argScan] at h
    split at h
    · rcases ih missing pending m2 p2 h t ht with h1 | ⟨h2a, h2b, h2c⟩
      · exact Or.inl h1
      · exact Or.inr ⟨List.mem_cons_of_mem a h2a, h2b, h2c⟩
    · next hkey =>
      have hkeyf : keyInTys a.key pending = false := by
        cases hx : keyInTys a.key pending
        · rfl
        · exact absurd hx hkey
      split at h
      · next hchk =>
        have hchk2 : check a = false := by
          simpa using hchk
        by_cases hmm : keyInTys a.key missing = true
        · rw [if_pos hmm] at h
          rcases ih missing pending m2 p2 h t ht with h1 | ⟨h2a, h2b, h2c⟩
          · exact Or.inl h1
          · exact Or.inr ⟨List.mem_cons_of_mem a h2a, h2b, h2c⟩
        · rw [if_neg hmm] at h
          rcases ih (missing ++ [a]) pending m2 p2 h t ht with h1 | ⟨h2a, h2b, h2c⟩
          · rcases List.mem_append.mp h1 with h2 | h2
            · exact Or.inl h2
            · simp only [List.mem_singleton] at h2
              subst h2
              exact Or.inr ⟨List.mem_cons_self t rest, hchk2, hkeyf⟩
          · exact Or.inr ⟨List.mem_cons_of_mem a h2a, h2b, h2c⟩
      · rcases ih missing (pending ++ [a]) m2 p2 h t ht with h1 | ⟨h2a, h2b, h2c⟩
        · exact Or.inl h1
        · have h2c2 : keyInTys t.key pending = false := by
            simp only [keyInTys, List.any_append, Bool.or_eq_false_iff] at h2c
            exact h2c.1
          exact Or.inr ⟨List.mem_cons_of_mem a h2a, h2b, h2c2⟩

theorem mapperLoop_complete2 (fuel : Nat) (mappers : List Func) (check : Ty → Bool)
    (hkd : ∀ u v : Ty, u.key = v.key → check u = check v)
    (ihIn : ∀ (g : Func) (V : List Nat) (pending : List Ty),
      notPendingCount mappers V + 1 ≤ fuel →
      (∀ a ∈ g.args, keyInTys a.key pending = true ∨ check a = true ∨
        Der mappers (fun k => ∃ u : Ty, u.key = k ∧ check u = true) V a.key) →
      ∃ R, inputSetGo fuel g mappers check V pending = some R) :
    ∀ (ms : List Func) (f0 : Func) (V : List Nat) (missing pending : List Ty),
      notPendingCount mappers V ≤ fuel →
      missing ≠ [] →
      (∀ t ∈ missing, ∃ m, m ∈ ms ∧ m ∈ mappers ∧ V.contains m.id = false ∧
        m.out.key = t.key ∧
        (∀ a ∈ m.args, ¬(∃ u : Ty, u.key = a.key ∧ check u = true) →
          Der mappers (fun k => ∃ u : Ty, u.key = k ∧ check u = true) (m.id :: V) a.key)) →
      ∃ R, mapperLoop fuel ms f0 mappers check V missing pending = some R := by
  intro ms
  induction ms with
  | nil =>
    intro f0 V missing pending hfuel hne hwit
    obtain ⟨t, ht⟩ := List.exists_mem_of_ne_nil missing hne
    obtain ⟨m, hm, _⟩ := hwit t ht
    simp at hm
  | cons m1 rest ih =>
    intro f0 V missing pending hfuel hne hwit
    simp only [mapperLoop]
    by_cases hv : V.contains m1.id = true
    · rw [if_pos hv]
      refine ih f0 V missing pending hfuel hne ?_
      intro t ht
      obtain ⟨m, hmms, hmm, hmv, hout, hpre⟩ := hwit t ht
      refine ⟨m, ?_, hmm, hmv, hout, hpre⟩
      rcases List.mem_cons.mp hmms with h1 | h1
      · subst h1
        rw [hmv] at hv
        exact absurd hv (by simp)
      · exact h1
    · rw [if_neg hv]
      by_cases hkey : keyInTys m1.out.key missing = true
      · rw [if_neg (by simp [hkey])]
        rcases hrec : inputSetGo fuel m1 mappers check (m1.id :: V) pending with _ | result_i
        · refine ih f0 V missing pending hfuel hne ?_
          intro t ht
          obtain ⟨m, hmms, hmm, hmv, hout, hpre⟩ := hwit t ht
          have hm_rest : m ∈ rest := by
            rcases List.mem_cons.mp hmms with h1 | h1
            · exfalso
              subst h1
              have hcnt : notPendingCount mappers (m.id :: V) + 1 ≤ fuel := by
                have := notPendingCount_lt mappers V m hmm hmv
                omega
              have hargs2 : ∀ a ∈ m.args, keyInTys a.key pending = true ∨
                  check a = true ∨
                  Der mappers (fun k => ∃ u : Ty, u.key = k ∧ check u = true)
                    (m.id :: V) a.key := by
                intro a ha
                by_cases hka : ∃ u : Ty, u.key = a.key ∧ check u = true
                · obtain ⟨u, hu, hcu⟩ := hka
                  exact Or.inr (Or.inl (by rw [hkd a u hu.symm]; exact hcu))
                · exact Or.inr (Or.inr (hpre a ha hka))
              obtain ⟨R, hR⟩ := ihIn m (m.id :: V) pending hcnt hargs2
              rw [hR] at hrec
              simp at hrec
            · exact h1
          exact ⟨m, hm_rest, hmm, hmv, hout, hpre⟩
        · by_cases hre : (missing.filter (fun t => t.key != m1.out.key)).isEmpty = true
          · exact ⟨result_i, by simp [hre]⟩
          · have hne2 : missing.filter (fun t => t.key != m1.out.key) ≠ [] := by
              intro h0
              rw [h0] at hre
              simp at hre
            have hwit2 : ∀ t ∈ missing.filter (fun t => t.key != m1.out.key),
                ∃ m, m ∈ rest ∧ m ∈ mappers ∧ V.contains m.id = false ∧
                  m.out.key = t.key ∧
                  (∀ a ∈ m.args, ¬(∃ u : Ty, u.key = a.key ∧ check u = true) →
                    Der mappers (fun k => ∃ u : Ty, u.key = k ∧ check u = true)
                      (m.id :: V) a.key) := by
              intro t ht
              have ht1 : t ∈ missing := List.mem_of_mem_filter ht
              have ht2 : t.key ≠ m1.out.key := by
                have := List.of_mem_filter ht
                simpa using this
              obtain ⟨m, hmms, hmm, hmv, hout, hpre⟩ := hwit t ht1
              have hm_rest : m ∈ rest := by
                rcases List.mem_cons.mp hmms with h1 | h1
                · exfalso
                  subst h1
                  exact ht2 hout.symm
                · exact h1
              exact ⟨m, hm_rest, hmm, hmv, hout, hpre⟩
            obtain ⟨R, hR⟩ := ih f0 V (missing.filter (fun t => t.key != m1.out.key))
              result_i hfuel hne2 hwit2
            exact ⟨R, by simp [hre, hR]⟩
      · rw [if_pos (by simp only [Bool.not_eq_true']; cases hx : keyInTys m1.out.key missing; rfl; exact absurd hx hkey)]
        refine ih f0 V missing pending hfuel hne ?_
        intro t ht
        obtain ⟨m, hmms, hmm, hmv, hout, hpre⟩ := hwit t ht
        have hm_rest : m ∈ rest := by
          rcases List.mem_cons.mp hmms with h1 | h1
          · exfalso
            subst h1
            exact hkey ((keyInTys_iff m.out.key missing).mpr ⟨t, ht, hout.symm⟩)
          · exact h1
        exact ⟨m, hm_rest, hmm, hmv, hout, hpre⟩

theorem inputSetGo_complete : ∀ (fuel : Nat) (mappers : List Func) (check : Ty → Bool),
    (∀ u v : Ty, u.key = v.key → check u = check v) →
    ∀ (f : Func) (V : List Nat) (pending : List Ty),
      notPendingCount mappers V + 1 ≤ fuel →
      (∀ a ∈ f.args, keyInTys a.key pending = true ∨ check a = true ∨
        Der mappers (fun k => ∃ u : Ty, u.key = k ∧ check u = true) V a.key) →
      ∃ R, inputSetGo fuel f mappers check V pending = some R := by
  intro fuel
  induction fuel with
  | zero =>
    intro mappers check hkd f V pending hfuel hargs
    omega
  | succ n ihf =>
    intro mappers check hkd f V pending hfuel hargs
    rcases hAS : argScan f.args check [] pending with ⟨missing, pending2⟩
    simp only [inputSetGo, hAS]
    by_cases hemp : missing.isEmpty = true
    · rw [if_pos hemp]
      exact ⟨pending2, rfl⟩
    · rw [if_neg hemp]
      refine mapperLoop_complete2 n mappers check hkd
        (fun g V2 p2 hf2 ha2 => ihf mappers check hkd g V2 p2 hf2 ha2)
        mappers f V missing pending2 (by omega)
        (by intro h0; rw [h0] at hemp; simp at hemp) ?_
      intro t ht
      rcases argScan_missing check f.args [] pending missing pending2 hAS t ht with
        h1 | ⟨ht1, ht2, ht3⟩
      · simp at h1
      · rcases hargs t ht1 with h2 | h2 | h2
        · rw [ht3] at h2
          exact absurd h2 (by simp)
        · rw [ht2] at h2
          exact absurd h2 (by simp)
        · cases h2 with
          | mk _ _ m hm hnot hout hpre =>
            refine ⟨m, hm, hm, ?_, hout, hpre⟩
            cases hx : V.contains m.id
            · rfl
            · exact absurd ((natContains_iff V m.id).mp hx) hnot

/-- C3: when the input-set search returns a non-nil list of types,
supplying a value for each returned type key makes the chain builder
succeed against the same library; and it returns nil exactly when some
argument of the target is satisfiable neither by the supply predicate
nor through any finite (hence acyclic) chain of library mappers.  The
identity hypotheses state that the numeric ids faithfully embed Go
pointer identity, and the predicate hypothesis that the supply check
respects the canonical Key identity of type descriptors. -/
theorem chainInputSet_guarantee (f : Func) (mappers : List Func) (check : Ty → Bool)
    (hfid : ∀ m ∈ mappers, m.id = f.id → m = f)
    (hids : ∀ m1 ∈ mappers, ∀ m2 ∈ mappers, m1.id = m2.id → m1 = m2)
    (hkd : ∀ u v : Ty, u.key = v.key → check u = check v) :
    (∀ R, Func.ChainInputSet f mappers check = some R →
      ∀ values : List Value, (∀ t ∈ R, ∃ v ∈ values, v.ty.key = t.key) →
      ∃ c, Func.Chain f mappers values = Except.ok c) ∧
    (Func.ChainInputSet f mappers check = none ↔
      ∃ a ∈ f.args, ∀ n, canSatN mappers check n a = false) := by
  constructor
  · intro R hR values hcov
    exact chainInputSet_chain_ok f mappers check R hR hfid values hcov
  · constructor
    · intro hnone
      by_contra hns
      push_neg at hns
      have hargs : ∀ a ∈ f.args, keyInTys a.key [] = true ∨ check a = true ∨
          Der mappers (fun k => ∃ u : Ty, u.key = k ∧ check u = true) [] a.key := by
        intro a ha
        obtain ⟨n, hn⟩ := hns a ha
        have hn2 : canSatN mappers check n a = true := by
          cases hx : canSatN mappers check n a
          · exact absurd hx hn
          · rfl
        have hex : ∃ k, canSatN mappers check k a = true := ⟨n, hn2⟩
        rcases canSatN_to_Der mappers check hids (Nat.find hex) a []
          (Nat.find_spec hex) (fun k hk => Nat.find_min' hex hk)
          (by intro i hi; simp at hi) with h1 | h1
        · exact Or.inr (Or.inl h1)
        · exact Or.inr (Or.inr h1)
      have hcnt : notPendingCount mappers [] + 1 ≤ inputFuel mappers := by
        have h1 : notPendingCount mappers [] ≤ mappers.length :=
          List.length_filter_le _ _
        simp only [inputFuel]
        omega
      obtain ⟨R, hR⟩ := inputSetGo_complete (inputFuel mappers) mappers check hkd
        f [] [] hcnt hargs
      simp only [Func.ChainInputSet] at hnone
      rw [hR] at hnone
      simp at hnone
    · rintro ⟨a, ha, hunsat⟩
      cases hres : Func.ChainInputSet f mappers check with
      | none => rfl
      | some R =>
        exfalso
        obtain ⟨hA, hB, hC⟩ := inputSetGo_sound (inputFuel mappers) mappers check
          f [] [] R hres
        have hleaf : ∀ k, k ∈ tyKeys R → ∀ u : Ty, u.key = k →
            ∃ n, canSatN mappers check n u = true := by
          intro k hk u hu
          obtain ⟨w, hw, hkw⟩ := (tyKeys_mem_iff k R).mp hk
          have hcw : check w = true := by
            rcases hB w hw with h1 | h1
            · simp at h1
            · exact h1
          refine ⟨1, ?_⟩
          simp only [canSatN, Bool.or_eq_true]
          left
          rw [hkd u w (by rw [hu, hkw])]
          exact hcw
        have hsat : ∃ n, canSatN mappers check n a = true := by
          rcases hC a ha with h1 | h1
          · exact hleaf a.key h1 a rfl
          · exact Der_to_canSat mappers check (fun k => k ∈ tyKeys R) hleaf
              [] a.key h1 a rfl
        obtain ⟨n, hn⟩ := hsat
        rw [hunsat n] at hn
        simp at hn

def c3TyI : Ty := ⟨60, "ti"⟩
def c3TyS : Ty := ⟨61, "ts"⟩

/-- Target requiring ts. -/
def c3T : Func := ⟨0, [c3TyS], ⟨62, "to"⟩, [], wNoExec⟩

/-- Mapper producing ts from ti. -/
def c3M : Func := ⟨1, [c3TyI], c3TyS, [], wNoExec⟩

theorem chainInputSet_guarantee_witness :
    ∃ c, Func.Chain c3T [c3M] [⟨c3TyI, 0⟩] = Except.ok c :=
  (chainInputSet_guarantee c3T [c3M] (fun t => t.key == 60)
      (by
        intro m hm hid
        simp only [List.mem_singleton] at hm
        subst hm
        simp [c3M, c3T] at hid)
      (by
        intro m1 h1 m2 h2 hid
        simp only [List.mem_singleton] at h1 h2
        rw [h1, h2])
      (by
        intro u v h
        simp [h])).1
    [c3TyI]
    (by
      simp [Func.ChainInputSet, inputSetGo, mapperLoop, argScan, inputFuel,
        keyInTys, c3T, c3M, c3TyI, c3TyS])
    [⟨c3TyI, 0⟩]
    (by decide)

end Mapper
